import Mathlib

/-!
Verification of the resource-manager specification against a shallow
embedding of the repository's code.

The `SSA` namespace models the server-side-apply resource manager
(ObjectIdentity, ownership markers, ApplySet building, apply, diffing,
pruning and convergence waiting).  The `OCI` namespace embeds
`Client.Push` from `oci/client/push.go`, and the `TestUtil` namespace
embeds the `setNamespace` helper from the ssa test harness.
-/

namespace SSA

/-- Object identity: group, version, kind, namespace and name. -/
structure ObjectIdentity where
  group : String
  version : String
  kind : String
  nspace : String
  name : String
deriving DecidableEq, Repr

/-- Identity comparison key: `(group, kind, namespace, name)` — the
version is not part of identity. -/
def idKey (i : ObjectIdentity) : String × String × String × String :=
  (i.group, i.kind, i.nspace, i.name)

/-- Ownership marker, matching the source's `Owner{Field, Group}`. -/
structure Owner where
  field : String
  group : String
deriving DecidableEq, Repr

/-- Modelled from the spec: an object is an opaque structured document with
its derived identity, optional ownership metadata, the retain-on-prune
annotation, caller-controlled data fields and server-managed fields
(timestamps, resource version, status). -/
structure Obj where
  identity : ObjectIdentity
  owner : Option Owner
  retain : Bool
  data : List (String × String)
  server : List (String × String)
deriving DecidableEq, Repr

/-- Modelled from the spec: the fixed allow-list of definitional kinds
(namespace-like, CRD-like, cluster-role-like). -/
def definitionalKinds : List String :=
  ["Namespace", "CustomResourceDefinition", "ClusterRole"]

/-- Phase of a kind: 0 for definitional kinds, 1 for everything else. -/
def phaseOfKind (kind : String) : Nat :=
  if kind ∈ definitionalKinds then 0 else 1

/-- Phase of an object. -/
def phase (o : Obj) : Nat := phaseOfKind o.identity.kind

/-- Modelled from the spec: an object has a resolvable identity when its
kind and name are non-empty. -/
def resolvable (o : Obj) : Bool :=
  o.identity.kind ≠ "" && o.identity.name ≠ ""

/-- Errors raised by the ApplySet builder. -/
inductive BuildError where
  | validationError (i : ObjectIdentity)
  | duplicateObjectError (i : ObjectIdentity)
deriving DecidableEq, Repr

/-- An ApplySet: an ordered sequence of objects, phase-0 objects first. -/
structure ApplySet where
  objects : List Obj
deriving DecidableEq, Repr

/-- Stable phase ordering: all phase-0 objects first, each group in
caller-supplied order. -/
def sortPhases (objs : List Obj) : List Obj :=
  objs.filter (fun o => phase o == 0) ++ objs.filter (fun o => !(phase o == 0))

/-- Modelled from the spec: validation loop of `Build` — reject an object
lacking a resolvable identity with a `ValidationError`, and a repeated
identity key (version ignored) with a `DuplicateObjectError`. -/
def buildCheck : List Obj → List (String × String × String × String) →
    Except BuildError Unit
  | [], _ => .ok ()
  | o :: rest, seen =>
    if resolvable o = false then .error (.validationError o.identity)
    else if idKey o.identity ∈ seen then .error (.duplicateObjectError o.identity)
    else buildCheck rest (idKey o.identity :: seen)

/-- Modelled from the spec: `Build(objects) -> ApplySet` validates the
objects and orders them into phases. -/
def Build (objs : List Obj) : Except BuildError ApplySet :=
  (buildCheck objs []).map (fun _ => ⟨sortPhases objs⟩)

/-- Error raised by `Stamp` when the object is owned by a different marker. -/
inductive StampError where
  | ownershipConflict (cur : Owner)
deriving DecidableEq, Repr

/-- Modelled from the spec: `Stamp(object, marker)` returns a copy with the
ownership metadata set; stamping an object owned by a different marker is
rejected. -/
def Stamp (o : Obj) (m : Owner) : Except StampError Obj :=
  match o.owner with
  | none => .ok { o with owner := some m }
  | some cur => if cur = m then .ok { o with owner := some m }
                else .error (.ownershipConflict cur)

/-- Modelled from the spec: `Owner(object) -> marker | none`. -/
def ownerOf (o : Obj) : Option Owner := o.owner

/-- Modelled from the spec: `Matches(object, marker) -> bool`. -/
def Matches (o : Obj) (m : Owner) : Bool := o.owner == some m

/-- The object store: a list of objects, addressed by identity key. -/
def Store := List Obj

/-- Look up the live object for an identity (version ignored). -/
def lookupStore (s : List Obj) (i : ObjectIdentity) : Option Obj :=
  s.find? (fun o => idKey o.identity == idKey i)

/-- Write an object into the store at its identity key. -/
def upsert (s : List Obj) (o : Obj) : List Obj :=
  if (lookupStore s o.identity).isSome then
    s.map (fun l => if idKey l.identity == idKey o.identity then o else l)
  else s ++ [o]

/-- Delete every object with the given identity key from the store. -/
def deleteStore (s : List Obj) (i : ObjectIdentity) : List Obj :=
  s.filter (fun o => !(idKey o.identity == idKey i))

/-- Change actions reported per object per operation. -/
inductive Action where
  | Created | Configured | Unchanged | Skipped | Deleted | Failed
deriving DecidableEq, Repr

/-- Per-object errors surfaced in ChangeRecords. -/
inductive ApplyError where
  | ownershipConflictError (i : ObjectIdentity) (cur : Owner)
deriving DecidableEq, Repr

/-- One ChangeRecord per object per operation. -/
structure ChangeRecord where
  identity : ObjectIdentity
  action : Action
  diff : Option String
  error : Option ApplyError
deriving DecidableEq, Repr

/-- Strip the server-managed fields (timestamps, resource version, status)
before comparing. -/
def strip (o : Obj) : Obj := { o with server := [] }

/-- Modelled from the spec: the would-be result of a server-side merge of
the desired object into the live state — the caller's fields win, the
server-managed fields stay the store's. -/
def mergeInto (desired : Obj) (live : Option Obj) : Obj :=
  match live with
  | some l => { desired with server := l.server }
  | none => desired

/-- Modelled from the spec: a field-level diff summary of the data fields
(added, changed and removed keys), used only for observability. -/
def diffKeys (a b : Obj) : String :=
  String.intercalate "," ((a.data ++ b.data).map (fun kv => kv.1))

/-- Modelled from the spec: `Classify(dryRunResult, liveObject | absent)`.
Absent → Created; byte-identical after stripping server-managed fields →
Unchanged; otherwise Configured with a diff text produced by `dfmt`. -/
def Classify (dfmt : Obj → Obj → String) (dryRun : Obj) (live : Option Obj) :
    Action × Option String :=
  match live with
  | none => (.Created, none)
  | some l =>
    if strip l = strip dryRun then (.Unchanged, none)
    else (.Configured, some (dfmt (strip l) (strip dryRun)))

/-- Apply options: ownership takeover, dry-run only, fail-fast. -/
structure ApplyOpts where
  force : Bool
  dryRunOnly : Bool
  failFast : Bool
deriving DecidableEq, Repr

/-- The prior owner that conflicts with ours, if any. -/
def conflictOwner (live : Option Obj) (us : Owner) : Option Owner :=
  match live with
  | none => none
  | some l =>
    match l.owner with
    | none => none
    | some cur => if cur = us then none else some cur

/-- Modelled from the spec: apply one object — stamp (refusing to transfer
ownership unless takeover is forced, a takeover being recorded as
Configured), dry-run merge, classify, then the real merge-apply unless
`dryRunOnly`. -/
def applyOne (us : Owner) (opts : ApplyOpts) (s : List Obj) (o : Obj) :
    ChangeRecord × List Obj :=
  let live := lookupStore s o.identity
  match conflictOwner live us, opts.force with
  | some cur, false =>
    (⟨o.identity, .Failed, none, some (.ownershipConflictError o.identity cur)⟩, s)
  | c, _ =>
    let stamped : Obj := { o with owner := some us }
    let dry := mergeInto stamped live
    let cls := Classify diffKeys dry live
    let act := if c.isSome then .Configured else cls.1
    if opts.dryRunOnly then (⟨o.identity, act, cls.2, none⟩, s)
    else if act = .Unchanged then (⟨o.identity, act, cls.2, none⟩, s)
    else (⟨o.identity, act, cls.2, none⟩, upsert s dry)

/-- Modelled from the spec: sequential best-effort apply over the phase
ordering; under `failFast` the first Failed record aborts the remainder. -/
def applyList (us : Owner) (opts : ApplyOpts) : List Obj → List Obj →
    List ChangeRecord × List Obj
  | [], s => ([], s)
  | o :: rest, s =>
    let p := applyOne us opts s o
    if opts.failFast && p.1.action == .Failed then ([p.1], p.2)
    else
      let q := applyList us opts rest p.2
      (p.1 :: q.1, q.2)

/-- Modelled from the spec: `Apply(set, options)` over the whole ApplySet. -/
def Apply (us : Owner) (opts : ApplyOpts) (set : ApplySet) (s : List Obj) :
    List ChangeRecord × List Obj :=
  applyList us opts set.objects s

/-- Modelled from the spec: the Inventory query — all objects currently
carrying the given ownership marker. -/
def inventory (s : List Obj) (us : Owner) : List Obj :=
  s.filter (fun o => o.owner == some us)

/-- Is the identity in the desired set (version ignored)? -/
def inDesired (desired : List ObjectIdentity) (i : ObjectIdentity) : Bool :=
  desired.any (fun d => idKey d == idKey i)

/-- Modelled from the spec: delete the stale objects one by one; an object
marked retain-on-prune is skipped and recorded Skipped. -/
def pruneList : List Obj → List Obj → List ChangeRecord × List Obj
  | [], s => ([], s)
  | o :: rest, s =>
    if o.retain then
      let q := pruneList rest s
      (⟨o.identity, .Skipped, none, none⟩ :: q.1, q.2)
    else
      let q := pruneList rest (deleteStore s o.identity)
      (⟨o.identity, .Deleted, none, none⟩ :: q.1, q.2)

/-- Modelled from the spec: `Prune(desired, marker)` — query the Inventory
for the marker's objects, compute `stale = owned − desired`, and delete
them in reverse phase order of the ApplySet classification. -/
def Prune (desired : List ObjectIdentity) (us : Owner) (s : List Obj) :
    List ChangeRecord × List Obj :=
  let owned := inventory s us
  let stale := owned.filter (fun o => !(inDesired desired o.identity))
  pruneList (sortPhases stale).reverse s

/-- A concrete manager marker used in concrete evaluations. -/
def mgrA : Owner := ⟨"mgrA", "a.io"⟩

/-- A concrete ConfigMap owned by `mgrA` and marked retain-on-prune. -/
def retainedCm : Obj :=
  ⟨⟨"", "v1", "ConfigMap", "ns1", "cm2"⟩, some mgrA, true, [], []⟩

/-- A concrete ConfigMap owned by `mgrA` without the retain marker. -/
def plainCm : Obj :=
  ⟨⟨"", "v1", "ConfigMap", "ns1", "cm1"⟩, some mgrA, false, [], []⟩

/-- A second concrete manager marker. -/
def mgrB : Owner := ⟨"mgrB", "b.io"⟩

/-- A desired (unowned) object with the same identity as `plainCm`. -/
def cmDesired : Obj :=
  ⟨⟨"", "v1", "ConfigMap", "ns1", "cm1"⟩, none, false, [("a", "b")], []⟩

/-- Per-identity poll outcome observed from the store at one tick. -/
inductive PollStatus where
  | Pending | Healthy | Failed | TimedOut
deriving DecidableEq, Repr

/-- Readiness result returned by `Wait` for one identity. -/
structure ReadinessResult where
  identity : ObjectIdentity
  status : PollStatus
  cancelled : Bool
deriving DecidableEq, Repr

/-- First terminal observation (Healthy or Failed) among ticks `< n`. -/
def firstTerminal (obs : Nat → PollStatus) : Nat → Option PollStatus
  | 0 => none
  | n + 1 =>
    match firstTerminal obs n with
    | some st => some st
    | none =>
      match obs n with
      | .Healthy => some .Healthy
      | .Failed => some .Failed
      | _ => none

/-- Number of polling ticks `Wait` performs: the deadline, cut short by a
cancellation that fires earlier. -/
def horizon (timeout : Nat) (cancelAt : Option Nat) : Nat :=
  match cancelAt with
  | some c => min c timeout
  | none => timeout

/-- Modelled from the spec: `Wait(identities, timeout, pollInterval)` —
poll each identity until it reaches a terminal state or the deadline or a
cancellation fires; identities still Pending then are reported TimedOut,
with the cancellation flag when the cancellation fired first. -/
def Wait (obs : ObjectIdentity → Nat → PollStatus) (ids : List ObjectIdentity)
    (timeout : Nat) (cancelAt : Option Nat) : List ReadinessResult :=
  ids.map (fun i =>
    match firstTerminal (obs i) (horizon timeout cancelAt) with
    | some st => ⟨i, st, false⟩
    | none =>
      ⟨i, .TimedOut, match cancelAt with
                     | some c => decide (c < timeout)
                     | none => false⟩)

end SSA

namespace OCI

/-- A parsed OCI reference; `repository` stands for `ref.Context()`, the
registry-qualified repository. -/
structure OCIRef where
  repository : String
deriving DecidableEq, Repr

/-- `ref.Context().Digest(d).String()`: the repository combined with the
digest. -/
def refDigestString (r : OCIRef) (d : String) : String :=
  r.repository ++ "@" ++ d

/-- An OCI image, kept abstract: its layers and annotations. -/
structure Image where
  layers : List String
  annotations : List (String × String)
deriving DecidableEq, Repr

/-- Artifact metadata; `created` is overwritten with the current time
before annotating the image. -/
structure Metadata where
  created : String
  rest : List (String × String)
deriving DecidableEq, Repr

/-- `Metadata.ToAnnotations`. -/
def Metadata.toAnnotations (m : Metadata) : List (String × String) :=
  ("org.opencontainers.image.created", m.created) :: m.rest

/-- Observable side effects of a `Push` call, in order. -/
inductive PushEffect where
  | tempDirCreated
  | artifactBuilt
  | contentAppended
  | artifactPushed
  | tempDirRemoved
deriving DecidableEq, Repr

/-- The collaborators `Push` calls, each an oracle that may fail:
reference parsing, temp-dir creation, `c.Build`, `crane.Append`,
annotation, `crane.Push`, `img.Digest()` and the clock. -/
structure PushEnv where
  parseReference : String → Except String OCIRef
  mkdirTemp : Except String String
  build : String → String → List String → Except String Unit
  appendImage : String → Except String Image
  annotate : Image → List (String × String) → Image
  pushImage : Image → String → Except String Unit
  digestOf : Image → Except String String
  now : String

/-- Shallow embedding of `Client.Push` from `oci/client/push.go`: the Go
result pair `(string, error)` plus the trace of side effects performed. -/
def Push (env : PushEnv) (url sourceDir : String) (meta : Metadata)
    (ignorePaths : List String) : (String × Option String) × List PushEffect :=
  match env.parseReference url with
  | .error e => (("", some ("invalid URL: " ++ e)), [])
  | .ok ref =>
    match env.mkdirTemp with
    | .error e => (("", some e), [])
    | .ok tmpDir =>
      let tmpFile := tmpDir ++ "/artifact.tgz"
      match env.build tmpFile sourceDir ignorePaths with
      | .error e =>
        (("", some e), [.tempDirCreated, .tempDirRemoved])
      | .ok _ =>
        match env.appendImage tmpFile with
        | .error e =>
          (("", some ("appeding content to artifact failed: " ++ e)),
           [.tempDirCreated, .artifactBuilt, .tempDirRemoved])
        | .ok img =>
          let meta2 : Metadata := { meta with created := env.now }
          let img2 := env.annotate img meta2.toAnnotations
          match env.pushImage img2 url with
          | .error e =>
            (("", some ("pushing artifact failed: " ++ e)),
             [.tempDirCreated, .artifactBuilt, .contentAppended, .tempDirRemoved])
          | .ok _ =>
            match env.digestOf img2 with
            | .error e =>
              (("", some ("parsing artifact digest failed: " ++ e)),
               [.tempDirCreated, .artifactBuilt, .contentAppended,
                .artifactPushed, .tempDirRemoved])
            | .ok d =>
              ((refDigestString ref d, none),
               [.tempDirCreated, .artifactBuilt, .contentAppended,
                .artifactPushed, .tempDirRemoved])

/-- A fully successful concrete push environment. -/
def envOK : PushEnv where
  parseReference := fun _ => .ok ⟨"registry.example/repo"⟩
  mkdirTemp := .ok "/tmp/oci1"
  build := fun _ _ _ => .ok ()
  appendImage := fun f => .ok ⟨[f], []⟩
  annotate := fun i a => { i with annotations := a }
  pushImage := fun _ _ => .ok ()
  digestOf := fun _ => .ok "sha256:0011"
  now := "2026-01-01T00:00:00Z"

end OCI

namespace TestUtil

/-- An unstructured object as the test helpers see it: group, version,
kind, name, namespace and the remaining fields. -/
structure UObj where
  apiGroup : String
  version : String
  kind : String
  name : String
  nspace : String
  labels : List (String × String)
deriving DecidableEq, Repr

/-- `object.SetNamespace(namespace)`: sets only the namespace field. -/
def setNS (o : UObj) (ns : String) : UObj := { o with nspace := ns }

/-- In-place update of the heap cell at address `a`; a no-op when the
address is out of range. -/
def heapWrite : List UObj → Nat → String → List UObj
  | [], _, _ => []
  | o :: t, 0, ns => setNS o ns :: t
  | o :: t, a + 1, ns => o :: heapWrite t a ns

/-- The `Namespace` object `setNamespace` constructs for `namespace`. -/
def nsObject (ns : String) : UObj :=
  { apiGroup := "", version := "v1", kind := "Namespace",
    name := ns, nspace := "", labels := [] }

/-- Shallow embedding of `setNamespace` from the ssa test harness: the
heap is a list of objects, the slice a list of addresses passed by value.
The loop mutates each pointed-to object in place; the fresh `Namespace`
object is allocated on the heap and appended only to the function's local
slice value, which is returned here to make it inspectable. -/
def setNamespace (h : List UObj) (slice : List Nat) (ns : String) :
    List UObj × List Nat :=
  let h1 := slice.foldl (fun acc a => heapWrite acc a ns) h
  let h2 := h1 ++ [nsObject ns]
  let localSlice := slice ++ [h1.length]
  (h2, localSlice)

end TestUtil

namespace TestUtil

theorem heapWrite_length (h : List UObj) (a : Nat) (ns : String) :
    (heapWrite h a ns).length = h.length := by
  induction h generalizing a with
  | nil => simp [heapWrite]
  | cons o t ih =>
    cases a with
    | zero => simp [heapWrite]
    | succ b => simp [heapWrite, ih]

theorem heapWrite_get_eq (h : List UObj) (a : Nat) (ns : String) :
    (heapWrite h a ns).get? a = (h.get? a).map (fun o => setNS o ns) := by
  induction h generalizing a with
  | nil => simp [heapWrite]
  | cons o t ih =>
    cases a with
    | zero => simp [heapWrite]
    | succ b => simpa [heapWrite] using ih b

theorem heapWrite_get_ne (h : List UObj) (a b : Nat) (ns : String)
    (hne : b ≠ a) : (heapWrite h a ns).get? b = h.get? b := by
  induction h generalizing a b with
  | nil => simp [heapWrite]
  | cons o t ih =>
    cases a with
    | zero =>
      cases b with
      | zero => exact absurd rfl hne
      | succ c => simp [heapWrite]
    | succ a2 =>
      cases b with
      | zero => simp [heapWrite]
      | succ c => simpa [heapWrite] using ih a2 c (by omega)

theorem foldl_write_length (slice : List Nat) (h : List UObj) (ns : String) :
    (slice.foldl (fun acc a => heapWrite acc a ns) h).length = h.length := by
  induction slice generalizing h with
  | nil => rfl
  | cons a rest ih =>
    simp only [List.foldl_cons]
    rw [ih, heapWrite_length]

theorem foldl_write_get_notmem (slice : List Nat) (h : List UObj) (ns : String)
    (b : Nat) (hb : b ∉ slice) :
    (slice.foldl (fun acc a => heapWrite acc a ns) h).get? b = h.get? b := by
  induction slice generalizing h with
  | nil => rfl
  | cons a rest ih =>
    simp only [List.foldl_cons]
    have h1 : b ≠ a := fun e => hb (by simp [e])
    rw [ih _ (fun hm => hb (List.mem_cons_of_mem _ hm))]
    exact heapWrite_get_ne h a b ns h1

theorem foldl_write_get_mem (slice : List Nat) (h : List UObj) (ns : String)
    (b : Nat) (hb : b ∈ slice) :
    (slice.foldl (fun acc a => heapWrite acc a ns) h).get? b =
      (h.get? b).map (fun o => setNS o ns) := by
  induction slice generalizing h with
  | nil => cases hb
  | cons a rest ih =>
    simp only [List.foldl_cons]
    by_cases hm : b ∈ rest
    · rw [ih _ hm]
      by_cases hab : b = a
      · subst hab
        rw [heapWrite_get_eq]
        cases h.get? b <;> simp [setNS]
      · rw [heapWrite_get_ne h a b ns hab]
    · have hab : b = a := by
        rcases List.mem_cons.mp hb with h1 | h1
        · exact h1
        · exact absurd h1 hm
      subst hab
      rw [foldl_write_get_notmem rest _ ns b hm]
      exact heapWrite_get_eq h b ns

/-- C10: after `setNamespace`, every object the caller's slice points to
has its namespace field set to `ns` and no other field changed, every
heap cell outside the slice is untouched, the caller's slice is as long
as before and cannot reach the fresh `Namespace` object, which lives at
the fresh address appended only to the function's local slice value. -/
theorem setNamespace_spec (h : List UObj) (slice : List Nat) (ns : String)
    (hvalid : ∀ a ∈ slice, a < h.length) :
    (∀ a ∈ slice, (setNamespace h slice ns).1.get? a =
      (h.get? a).map (fun o => setNS o ns)) ∧
    (∀ a, a ∉ slice → a < h.length →
      (setNamespace h slice ns).1.get? a = h.get? a) ∧
    h.length ∉ slice ∧
    (setNamespace h slice ns).1.get? h.length = some (nsObject ns) ∧
    (setNamespace h slice ns).2 = slice ++ [h.length] := by
  have hlen : (slice.foldl (fun acc a => heapWrite acc a ns) h).length =
      h.length := foldl_write_length slice h ns
  refine ⟨?_, ?_, ?_, ?_, ?_⟩
  · intro a ha
    show ((slice.foldl (fun acc a => heapWrite acc a ns) h) ++
      [nsObject ns]).get? a = _
    rw [List.get?_append (by rw [hlen]; exact hvalid a ha)]
    exact foldl_write_get_mem slice h ns a ha
  · intro a ha hlt
    show ((slice.foldl (fun acc a => heapWrite acc a ns) h) ++
      [nsObject ns]).get? a = _
    rw [List.get?_append (by rw [hlen]; exact hlt)]
    exact foldl_write_get_notmem slice h ns a ha
  · intro hmem
    exact absurd (hvalid _ hmem) (by omega)
  · show ((slice.foldl (fun acc a => heapWrite acc a ns) h) ++
      [nsObject ns]).get? h.length = _
    rw [← hlen]
    exact List.get?_concat_length _ _
  · show slice ++ [(slice.foldl (fun acc a => heapWrite acc a ns) h).length] = _
    rw [hlen]

/-- C10 witness. -/
theorem setNamespace_spec_witness :
    (setNamespace [⟨"", "v1", "ConfigMap", "cm1", "old", [("k", "v")]⟩] [0]
        "fresh").1.get? 0 =
      ([(⟨"", "v1", "ConfigMap", "cm1", "old", [("k", "v")]⟩ : UObj)].get? 0).map
        (fun o => setNS o "fresh") :=
  (setNamespace_spec [⟨"", "v1", "ConfigMap", "cm1", "old", [("k", "v")]⟩] [0]
      "fresh" (by simp)).1 0 (by simp)

end TestUtil

namespace OCI

/-- C9: when the url fails OCI reference parsing, `Push` returns the
empty string with an error wrapping the parse failure and performs no
side effect — no temporary directory, no artifact built, nothing pushed;
when every step succeeds, the returned string is the repository of the
parsed reference combined with the digest of the built image. -/
theorem push_invalid_url_and_success (env : PushEnv) (url sourceDir : String)
    (meta : Metadata) (ignorePaths : List String) :
    (∀ e, env.parseReference url = .error e →
      Push env url sourceDir meta ignorePaths =
        (("", some ("invalid URL: " ++ e)), [])) ∧
    (∀ ref tmpDir img d, env.parseReference url = .ok ref →
      env.mkdirTemp = .ok tmpDir →
      env.build (tmpDir ++ "/artifact.tgz") sourceDir ignorePaths = .ok () →
      env.appendImage (tmpDir ++ "/artifact.tgz") = .ok img →
      env.pushImage (env.annotate img (Metadata.toAnnotations
        { meta with created := env.now })) url = .ok () →
      env.digestOf (env.annotate img (Metadata.toAnnotations
        { meta with created := env.now })) = .ok d →
      (Push env url sourceDir meta ignorePaths).1 =
        (refDigestString ref d, none)) := by
  constructor
  · intro e he
    simp [Push, he]
  · intro ref tmpDir img d h1 h2 h3 h4 h5 h6
    simp [Push, h1, h2, h3, h4, h5, h6]

/-- C9 witness. -/
theorem push_invalid_url_and_success_witness :
    (Push envOK "oci://u" "src" ⟨"", []⟩ []).1 =
      ("registry.example/repo@sha256:0011", none) :=
  (push_invalid_url_and_success envOK "oci://u" "src" ⟨"", []⟩ []).2
    ⟨"registry.example/repo"⟩ "/tmp/oci1" ⟨["/tmp/oci1/artifact.tgz"], []⟩
    "sha256:0011" rfl rfl rfl rfl rfl rfl

end OCI

namespace SSA

/-- C7: `Stamp` is pure and idempotent — it returns a copy with ownership
metadata set (the input value is untouched by construction of the
embedding), stamping an object already stamped with the same marker is a
no-op, restamping a stamp result is a no-op, and stamping an object owned
by a different marker is rejected. -/
theorem stamp_pure_idempotent (o : Obj) (m : Owner) :
    (o.owner = some m → Stamp o m = .ok o) ∧
    (∀ o2, Stamp o m = .ok o2 → Stamp o2 m = .ok o2) ∧
    (∀ m2, o.owner = some m2 → m2 ≠ m →
      Stamp o m = .error (.ownershipConflict m2)) := by
  refine ⟨?_, ?_, ?_⟩
  · intro h
    cases o
    simp_all [Stamp]
  · intro o2 h
    cases ho : o.owner with
    | none =>
      simp [Stamp, ho] at h
      simp [Stamp, ← h]
    | some cur =>
      by_cases hc : cur = m
      · subst hc
        simp [Stamp, ho] at h
        simp [Stamp, ← h]
      · simp [Stamp, ho, hc] at h
  · intro m2 h hne
    simp [Stamp, h, hne]

/-- C7 witness. -/
theorem stamp_pure_idempotent_witness :
    Stamp ⟨⟨"", "v1", "ConfigMap", "ns1", "cm1"⟩, some ⟨"mgrA", "a.io"⟩, false, [], []⟩
        ⟨"mgrA", "a.io"⟩ =
      .ok ⟨⟨"", "v1", "ConfigMap", "ns1", "cm1"⟩, some ⟨"mgrA", "a.io"⟩, false, [], []⟩ :=
  (stamp_pure_idempotent ⟨⟨"", "v1", "ConfigMap", "ns1", "cm1"⟩, none, false, [], []⟩
      ⟨"mgrA", "a.io"⟩).2.1
    ⟨⟨"", "v1", "ConfigMap", "ns1", "cm1"⟩, some ⟨"mgrA", "a.io"⟩, false, [], []⟩ rfl

/-- C5: `Classify` returns Created when the object is absent, Unchanged
when the live object equals the dry-run result after stripping
server-managed fields, Configured when present and differing, and the
diff text plays no role in the chosen action: the action is the same for
every diff formatter. -/
theorem classify_rules (dfmt : Obj → Obj → String) (dryRun : Obj)
    (live : Option Obj) :
    (live = none → Classify dfmt dryRun live = (.Created, none)) ∧
    (∀ l, live = some l → strip l = strip dryRun →
      Classify dfmt dryRun live = (.Unchanged, none)) ∧
    (∀ l, live = some l → strip l ≠ strip dryRun →
      (Classify dfmt dryRun live).1 = .Configured) ∧
    (∀ dfmt2, (Classify dfmt dryRun live).1 = (Classify dfmt2 dryRun live).1) := by
  refine ⟨?_, ?_, ?_, ?_⟩
  · intro h
    simp [Classify, h]
  · intro l h heq
    simp [Classify, h, heq]
  · intro l h hne
    simp [Classify, h, hne]
  · intro dfmt2
    cases live with
    | none => simp [Classify]
    | some l =>
      by_cases heq : strip l = strip dryRun <;> simp [Classify, heq]

/-- C5 witness. -/
theorem classify_rules_witness :
    Classify diffKeys ⟨⟨"", "v1", "ConfigMap", "ns1", "cm1"⟩, none, false, [], []⟩
      none = (.Created, none) :=
  (classify_rules diffKeys ⟨⟨"", "v1", "ConfigMap", "ns1", "cm1"⟩, none, false, [], []⟩
      none).1 rfl

/-- A terminal observation is Healthy or Failed. -/
theorem firstTerminal_terminal (obs : Nat → PollStatus) (n : Nat) (st : PollStatus)
    (h : firstTerminal obs n = some st) : st = .Healthy ∨ st = .Failed := by
  induction n with
  | zero => simp [firstTerminal] at h
  | succ k ih =>
    rw [firstTerminal] at h
    cases hk : firstTerminal obs k with
    | some st2 =>
      rw [hk] at h
      cases h
      exact ih hk
    | none =>
      rw [hk] at h
      cases ho : obs k <;> rw [ho] at h <;> simp_all

/-- C8: `Wait` polls at most `timeout` ticks (its horizon never exceeds
the deadline), every returned status is terminal — Healthy, Failed or
TimedOut, never Pending — and on cancellation the identities already in a
terminal state are returned with that state while the still-pending ones
are reported TimedOut with the cancellation flag set. -/
theorem wait_converges (obs : ObjectIdentity → Nat → PollStatus)
    (ids : List ObjectIdentity) (timeout : Nat) (cancelAt : Option Nat) :
    horizon timeout cancelAt ≤ timeout ∧
    (∀ r ∈ Wait obs ids timeout cancelAt,
      r.status ≠ .Pending ∧
        (r.status = .Healthy ∨ r.status = .Failed ∨ r.status = .TimedOut)) ∧
    (∀ i ∈ ids, ∀ st, firstTerminal (obs i) (horizon timeout cancelAt) = some st →
      (⟨i, st, false⟩ : ReadinessResult) ∈ Wait obs ids timeout cancelAt) ∧
    (∀ i ∈ ids, ∀ c, cancelAt = some c → c < timeout →
      firstTerminal (obs i) (horizon timeout cancelAt) = none →
      (⟨i, .TimedOut, true⟩ : ReadinessResult) ∈ Wait obs ids timeout cancelAt) := by
  refine ⟨?_, ?_, ?_, ?_⟩
  · cases cancelAt with
    | none => exact Nat.le_refl _
    | some c => exact Nat.min_le_right _ _
  · intro r hr
    rcases List.mem_map.mp hr with ⟨i, hi, hfi⟩
    cases hft : firstTerminal (obs i) (horizon timeout cancelAt) with
    | some st =>
      rw [hft] at hfi
      rcases firstTerminal_terminal (obs i) _ st hft with h | h <;>
        simp [← hfi, h]
    | none =>
      rw [hft] at hfi
      simp [← hfi]
  · intro i hi st hft
    refine List.mem_map.mpr ⟨i, hi, ?_⟩
    rw [hft]
  · intro i hi c hc hlt hft
    refine List.mem_map.mpr ⟨i, hi, ?_⟩
    rw [hft, hc]
    simp [hlt]

theorem buildCheck_error_iff (objs : List Obj)
    (seen : List (String × String × String × String)) :
    (∃ e, buildCheck objs seen = .error e) ↔
      ((∃ o ∈ objs, resolvable o = false) ∨
        (∃ o ∈ objs, idKey o.identity ∈ seen) ∨
        ¬ (objs.map (fun o => idKey o.identity)).Nodup) := by
  induction objs generalizing seen with
  | nil => simp [buildCheck]
  | cons o rest ih =>
    by_cases hr : resolvable o = false
    · constructor
      · intro _
        exact Or.inl ⟨o, by simp, hr⟩
      · intro _
        exact ⟨.validationError o.identity, by simp [buildCheck, hr]⟩
    · have hr2 : resolvable o = true := by
        revert hr
        cases resolvable o <;> simp
      by_cases hs : idKey o.identity ∈ seen
      · constructor
        · intro _
          exact Or.inr (Or.inl ⟨o, by simp, hs⟩)
        · intro _
          exact ⟨.duplicateObjectError o.identity, by simp [buildCheck, hr2, hs]⟩
      · have hstep : buildCheck (o :: rest) seen =
            buildCheck rest (idKey o.identity :: seen) := by
          simp [buildCheck, hr2, hs]
        rw [hstep, ih]
        rw [List.map_cons, List.nodup_cons]
        constructor
        · rintro (h | h | h)
          · rcases h with ⟨o2, ho2, hre⟩
            exact Or.inl ⟨o2, List.mem_cons_of_mem _ ho2, hre⟩
          · rcases h with ⟨o2, ho2, hk⟩
            rcases List.mem_cons.mp hk with hk1 | hk2
            · refine Or.inr (Or.inr ?_)
              intro hn
              exact hn.1 (hk1 ▸ List.mem_map.mpr ⟨o2, ho2, rfl⟩)
            · exact Or.inr (Or.inl ⟨o2, List.mem_cons_of_mem _ ho2, hk2⟩)
          · exact Or.inr (Or.inr (fun hn => h hn.2))
        · rintro (h | h | h)
          · rcases h with ⟨o2, ho2, hre⟩
            rcases List.mem_cons.mp ho2 with rfl | ho3
            · rw [hr2] at hre
              exact absurd hre (by simp)
            · exact Or.inl ⟨o2, ho3, hre⟩
          · rcases h with ⟨o2, ho2, hk⟩
            rcases List.mem_cons.mp ho2 with rfl | ho3
            · exact absurd hk hs
            · exact Or.inr (Or.inl ⟨o2, ho3, List.mem_cons_of_mem _ hk⟩)
          · by_cases hmem : idKey o.identity ∈
                rest.map (fun o => idKey o.identity)
            · rcases List.mem_map.mp hmem with ⟨o2, ho2, hk⟩
              exact Or.inr (Or.inl ⟨o2, ho2, List.mem_cons.mpr (Or.inl hk)⟩)
            · refine Or.inr (Or.inr ?_)
              intro hn
              exact h ⟨hmem, hn⟩

theorem buildCheck_validation (objs : List Obj)
    (seen : List (String × String × String × String)) (i : ObjectIdentity)
    (h : buildCheck objs seen = .error (.validationError i)) :
    ∃ o ∈ objs, resolvable o = false := by
  induction objs generalizing seen with
  | nil => simp [buildCheck] at h
  | cons o rest ih =>
    by_cases hr : resolvable o = false
    · exact ⟨o, by simp, hr⟩
    · have hr2 : resolvable o = true := by
        revert hr
        cases resolvable o <;> simp
      by_cases hs : idKey o.identity ∈ seen
      · simp [buildCheck, hr2, hs] at h
      · rw [show buildCheck (o :: rest) seen =
            buildCheck rest (idKey o.identity :: seen) by
              simp [buildCheck, hr2, hs]] at h
        rcases ih _ h with ⟨o2, ho2, hk⟩
        exact ⟨o2, List.mem_cons_of_mem _ ho2, hk⟩

theorem buildCheck_duplicate (objs : List Obj)
    (seen : List (String × String × String × String)) (i : ObjectIdentity)
    (h : buildCheck objs seen = .error (.duplicateObjectError i)) :
    (∃ o ∈ objs, idKey o.identity ∈ seen) ∨
      ¬ (objs.map (fun o => idKey o.identity)).Nodup := by
  induction objs generalizing seen with
  | nil => simp [buildCheck] at h
  | cons o rest ih =>
    by_cases hr : resolvable o = false
    · simp [buildCheck, hr] at h
    · have hr2 : resolvable o = true := by
        revert hr
        cases resolvable o <;> simp
      by_cases hs : idKey o.identity ∈ seen
      · exact Or.inl ⟨o, by simp, hs⟩
      · rw [show buildCheck (o :: rest) seen =
            buildCheck rest (idKey o.identity :: seen) by
              simp [buildCheck, hr2, hs]] at h
        rcases ih _ h with ⟨o2, ho2, hk⟩ | hnd
        · rcases List.mem_cons.mp hk with hk2 | hk2
          · refine Or.inr ?_
            simp only [List.map_cons, List.nodup_cons]
            intro hn
            exact hn.1 (List.mem_map.mpr ⟨o2, ho2, hk2⟩)
          · exact Or.inl ⟨o2, List.mem_cons_of_mem _ ho2, hk2⟩
        · refine Or.inr ?_
          simp only [List.map_cons, List.nodup_cons]
          intro hn
          exact hnd hn.2

/-- C6: `Build` returns an error iff some object lacks a resolvable
identity or two objects share an identity key — `(group, kind,
namespace, name)`, version ignored; a `ValidationError` signals an
unresolvable object, a `DuplicateObjectError` a duplicated identity, so
duplicates are surfaced as an error, never silently merged. -/
theorem build_error_iff (objs : List Obj) :
    ((∃ e, Build objs = .error e) ↔
      ((∃ o ∈ objs, resolvable o = false) ∨
        ¬ (objs.map (fun o => idKey o.identity)).Nodup)) ∧
    (∀ i, Build objs = .error (.validationError i) →
      ∃ o ∈ objs, resolvable o = false) ∧
    (∀ i, Build objs = .error (.duplicateObjectError i) →
      ¬ (objs.map (fun o => idKey o.identity)).Nodup) := by
  have hmain := buildCheck_error_iff objs []
  simp only [List.not_mem_nil, and_false, exists_false, exists_prop,
    false_or, or_false, exists_and_left, exists_and_right] at hmain
  have hbridge : (∃ e, Build objs = .error e) ↔
      (∃ e, buildCheck objs [] = .error e) := by
    cases hb : buildCheck objs [] with
    | ok u => simp [Build, hb, Except.map]
    | error e => simp [Build, hb, Except.map]
  refine ⟨?_, ?_, ?_⟩
  · exact hbridge.trans hmain
  · intro i hi
    apply buildCheck_validation objs [] i
    cases hb : buildCheck objs [] with
    | ok u => simp [Build, hb, Except.map] at hi
    | error e =>
      simp [Build, hb, Except.map] at hi
      rw [hi]
  · intro i hi
    have hd := buildCheck_duplicate objs [] i ?_
    · rcases hd with ⟨o, _, hk⟩ | hnd
      · simp at hk
      · exact hnd
    · cases hb : buildCheck objs [] with
      | ok u => simp [Build, hb, Except.map] at hi
      | error e =>
        simp [Build, hb, Except.map] at hi
        rw [hi]

/-- C6 witness: two ConfigMaps differing only in version share an
identity, so Build errors. -/
theorem build_error_iff_witness :
    ∃ e, Build [⟨⟨"", "v1", "ConfigMap", "ns1", "cm1"⟩, none, false, [], []⟩,
      ⟨⟨"", "v2", "ConfigMap", "ns1", "cm1"⟩, none, false, [], []⟩] = .error e :=
  (build_error_iff [⟨⟨"", "v1", "ConfigMap", "ns1", "cm1"⟩, none, false, [], []⟩,
      ⟨⟨"", "v2", "ConfigMap", "ns1", "cm1"⟩, none, false, [], []⟩]).1.mpr
    (Or.inr (by simp [idKey]))

/-- C8 witness. -/
theorem wait_converges_witness :
    (⟨⟨"", "v1", "ConfigMap", "ns1", "cm1"⟩, .Healthy, false⟩ : ReadinessResult) ∈
      Wait (fun _ _ => .Healthy) [⟨"", "v1", "ConfigMap", "ns1", "cm1"⟩] 1 none :=
  (wait_converges (fun _ _ => .Healthy) [⟨"", "v1", "ConfigMap", "ns1", "cm1"⟩]
      1 none).2.2.1 ⟨"", "v1", "ConfigMap", "ns1", "cm1"⟩ (by simp) .Healthy rfl

theorem mem_sortPhases (a : Obj) (l : List Obj) : a ∈ sortPhases l ↔ a ∈ l := by
  unfold sortPhases
  rw [List.mem_append, List.mem_filter, List.mem_filter]
  cases hp : (phase a == 0) <;> simp [hp]

theorem phase_le_one (o : Obj) : phase o ≤ 1 := by
  unfold phase phaseOfKind
  split <;> omega

theorem sortPhases_pairwise (l : List Obj) :
    (sortPhases l).Pairwise (fun a b => phase a ≤ phase b) := by
  unfold sortPhases
  rw [List.pairwise_append]
  refine ⟨?_, ?_, ?_⟩
  · apply List.pairwise_of_forall_mem_list
    intro a ha b hb
    have ha2 := (List.mem_filter.mp ha).2
    simp at ha2
    omega
  · apply List.pairwise_of_forall_mem_list
    intro a ha b hb
    have hb2 := (List.mem_filter.mp hb).2
    have hle := phase_le_one a
    simp at hb2
    omega
  · intro a ha b hb
    have ha2 := (List.mem_filter.mp ha).2
    simp at ha2
    omega

theorem pruneList_records (elems : List Obj) (s : List Obj) :
    (pruneList elems s).1 = elems.map (fun o =>
      if o.retain then (⟨o.identity, .Skipped, none, none⟩ : ChangeRecord)
      else ⟨o.identity, .Deleted, none, none⟩) := by
  induction elems generalizing s with
  | nil => rfl
  | cons o rest ih =>
    cases hr : o.retain <;> simp [pruneList, hr, ih]

theorem pruneList_store (elems : List Obj) (s : List Obj) :
    (pruneList elems s).2 = s.filter (fun x =>
      !(elems.any (fun o => !o.retain &&
        (idKey x.identity == idKey o.identity)))) := by
  induction elems generalizing s with
  | nil => simp [pruneList]
  | cons o rest ih =>
    cases hr : o.retain with
    | true =>
      simp only [pruneList, hr, if_pos]
      rw [ih]
      apply List.filter_congr
      intro x hx
      simp [hr]
    | false =>
      simp only [pruneList, hr, if_neg, Bool.false_eq_true, not_false_iff]
      rw [ih]
      unfold deleteStore
      rw [List.filter_filter]
      apply List.filter_congr
      intro x hx
      simp only [List.any_cons, hr, Bool.not_false, Bool.true_and,
        Bool.not_or, Bool.and_comm]

theorem any_reverse_sortPhases (l : List Obj) (f : Obj → Bool) :
    ((sortPhases l).reverse).any f = l.any f := by
  cases ha : ((sortPhases l).reverse).any f <;> cases hb : l.any f <;> try rfl
  · rcases List.any_eq_true.mp hb with ⟨x, hx, hfx⟩
    have hcon : ((sortPhases l).reverse).any f = true :=
      List.any_eq_true.mpr ⟨x, List.mem_reverse.mpr ((mem_sortPhases x l).mpr hx),
        hfx⟩
    rw [ha] at hcon
    cases hcon
  · rcases List.any_eq_true.mp ha with ⟨x, hx, hfx⟩
    have hcon : l.any f = true :=
      List.any_eq_true.mpr ⟨x, (mem_sortPhases x l).mp (List.mem_reverse.mp hx),
        hfx⟩
    rw [hb] at hcon
    cases hcon

theorem prune_records (desired : List ObjectIdentity) (us : Owner)
    (s : List Obj) :
    (Prune desired us s).1 = ((sortPhases ((inventory s us).filter
        (fun o => !(inDesired desired o.identity)))).reverse).map (fun o =>
      if o.retain then (⟨o.identity, .Skipped, none, none⟩ : ChangeRecord)
      else ⟨o.identity, .Deleted, none, none⟩) := by
  unfold Prune
  exact pruneList_records _ _

theorem prune_store (desired : List ObjectIdentity) (us : Owner)
    (s : List Obj) :
    (Prune desired us s).2 = s.filter (fun x =>
      !(((inventory s us).filter (fun o => !(inDesired desired o.identity))).any
        (fun o => !o.retain && (idKey x.identity == idKey o.identity)))) := by
  unfold Prune
  rw [pruneList_store]
  apply List.filter_congr
  intro x hx
  rw [any_reverse_sortPhases]

theorem prune_deleted_mem_iff (desired : List ObjectIdentity) (us : Owner)
    (s : List Obj) (r : ChangeRecord) :
    (r ∈ (Prune desired us s).1 ∧ r.action = .Deleted) ↔
      (∃ o ∈ s, o.owner = some us ∧ o.retain = false ∧
        inDesired desired o.identity = false ∧
        r = ⟨o.identity, .Deleted, none, none⟩) := by
  rw [prune_records]
  constructor
  · rintro ⟨hmem, hact⟩
    rcases List.mem_map.mp hmem with ⟨o, ho, hro⟩
    have ho2 := (mem_sortPhases o _).mp (List.mem_reverse.mp ho)
    have ho3 := List.mem_filter.mp ho2
    have ho4 := List.mem_filter.mp ho3.1
    cases hr : o.retain with
    | true =>
      rw [hr] at hro
      simp at hro
      rw [← hro] at hact
      simp at hact
    | false =>
      rw [hr] at hro
      simp at hro
      refine ⟨o, ho4.1, ?_, hr, ?_, hro.symm⟩
      · have := ho4.2
        unfold inventory at *
        simpa using this
      · have := ho3.2
        simpa using this
  · rintro ⟨o, ho, hown, hret, hdes, hr⟩
    constructor
    · refine List.mem_map.mpr ⟨o, ?_, ?_⟩
      · refine List.mem_reverse.mpr ((mem_sortPhases o _).mpr ?_)
        refine List.mem_filter.mpr ⟨List.mem_filter.mpr ⟨ho, ?_⟩, ?_⟩
        · simp [hown]
        · simp [hdes]
      · rw [hret, hr]
        simp
    · rw [hr]

theorem prune_second_no_delete (desired : List ObjectIdentity) (us : Owner)
    (s : List Obj) (r : ChangeRecord)
    (hr : r ∈ (Prune desired us (Prune desired us s).2).1) :
    r.action ≠ .Deleted := by
  intro hact
  rcases (prune_deleted_mem_iff desired us (Prune desired us s).2 r).mp
      ⟨hr, hact⟩ with ⟨o, ho, hown, hret, hdes, hrec⟩
  rw [prune_store] at ho
  have ho2 := List.mem_filter.mp ho
  have hstale : o ∈ (inventory s us).filter
      (fun o => !(inDesired desired o.identity)) := by
    refine List.mem_filter.mpr ⟨List.mem_filter.mpr ⟨ho2.1, ?_⟩, ?_⟩
    · simp [hown]
    · simp [hdes]
  have hany : ((inventory s us).filter
      (fun o => !(inDesired desired o.identity))).any
        (fun o2 => !o2.retain && (idKey o.identity == idKey o2.identity)) =
          true := by
    refine List.any_eq_true.mpr ⟨o, hstale, ?_⟩
    simp [hret]
  have := ho2.2
  rw [hany] at this
  simp at this

/-- C2 counterexample: a stale object marked retain-on-prune is owned by
the marker and outside the desired set, yet Prune records Skipped and
deletes nothing, so Prune does not delete exactly `O − D` as claimed. -/
theorem prune_retained_counterexample :
    retainedCm.owner = some mgrA ∧
    inDesired [] retainedCm.identity = false ∧
    (Prune [] mgrA [retainedCm]).1 =
      [⟨retainedCm.identity, .Skipped, none, none⟩] ∧
    (Prune [] mgrA [retainedCm]).2 = [retainedCm] := by
  refine ⟨rfl, rfl, ?_, ?_⟩ <;> rfl

/-- C2 amended: Prune deletes exactly the non-retained identities of
`O − D` — nothing desired, nothing outside the marker's owned set and
nothing marked retain-on-prune is deleted, retained stale objects being
recorded Skipped — and an immediately subsequent Prune with the same
desired set deletes nothing. -/
theorem prune_deletes_exactly (desired : List ObjectIdentity) (us : Owner)
    (s : List Obj) :
    (∀ r, (r ∈ (Prune desired us s).1 ∧ r.action = .Deleted) ↔
      (∃ o ∈ s, o.owner = some us ∧ o.retain = false ∧
        inDesired desired o.identity = false ∧
        r = ⟨o.identity, .Deleted, none, none⟩)) ∧
    (∀ r ∈ (Prune desired us (Prune desired us s).2).1,
      r.action ≠ .Deleted) :=
  ⟨fun r => prune_deleted_mem_iff desired us s r,
   fun r hr => prune_second_no_delete desired us s r hr⟩

theorem findCons_pos (p : Obj → Bool) (a : Obj) (l : List Obj)
    (h : p a = true) : List.find? p (a :: l) = some a :=
  List.find?_cons_of_pos l h

theorem findCons_neg (p : Obj → Bool) (a : Obj) (l : List Obj)
    (h : p a = false) : List.find? p (a :: l) = List.find? p l :=
  List.find?_cons_of_neg l (by simp [h])

theorem lookup_map_replace_ne (s : List Obj) (o2 : Obj) (i : ObjectIdentity)
    (hne : idKey o2.identity ≠ idKey i) :
    lookupStore (s.map (fun l =>
      if idKey l.identity == idKey o2.identity then o2 else l)) i =
      lookupStore s i := by
  induction s with
  | nil => rfl
  | cons l t ih =>
    have h1 : (idKey o2.identity == idKey i) = false := by simpa using hne
    simp only [lookupStore] at ih ⊢
    rw [List.map_cons]
    by_cases hl : (idKey l.identity == idKey o2.identity) = true
    · have hl2 : idKey l.identity = idKey o2.identity := by simpa using hl
      have h2 : (idKey l.identity == idKey i) = false := by
        rw [hl2]
        exact h1
      rw [if_pos hl, findCons_neg _ o2 _ h1, findCons_neg _ l _ h2]
      exact ih
    · rw [if_neg hl]
      cases hp : (idKey l.identity == idKey i) with
      | true => rw [findCons_pos _ l _ hp, findCons_pos _ l _ hp]
      | false =>
        rw [findCons_neg _ l _ hp, findCons_neg _ l _ hp]
        exact ih

theorem lookup_append_single_ne (s : List Obj) (o2 : Obj) (i : ObjectIdentity)
    (hne : idKey o2.identity ≠ idKey i) :
    lookupStore (s ++ [o2]) i = lookupStore s i := by
  have h1 : (idKey o2.identity == idKey i) = false := by simpa using hne
  induction s with
  | nil =>
    simp only [lookupStore, List.nil_append]
    rw [findCons_neg _ o2 _ h1]
  | cons l t ih =>
    simp only [lookupStore] at ih ⊢
    rw [List.cons_append]
    cases hp : (idKey l.identity == idKey i) with
    | true => rw [findCons_pos _ l _ hp, findCons_pos _ l _ hp]
    | false =>
      rw [findCons_neg _ l _ hp, findCons_neg _ l _ hp]
      exact ih

theorem lookup_upsert_ne (s : List Obj) (o2 : Obj) (i : ObjectIdentity)
    (hne : idKey o2.identity ≠ idKey i) :
    lookupStore (upsert s o2) i = lookupStore s i := by
  unfold upsert
  split
  · exact lookup_map_replace_ne s o2 i hne
  · exact lookup_append_single_ne s o2 i hne

theorem lookup_map_replace_self (s : List Obj) (o2 : Obj)
    (hsome : (lookupStore s o2.identity).isSome) :
    lookupStore (s.map (fun l =>
      if idKey l.identity == idKey o2.identity then o2 else l)) o2.identity =
      some o2 := by
  induction s with
  | nil => simp [lookupStore] at hsome
  | cons l t ih =>
    have hself : (idKey o2.identity == idKey o2.identity) = true := by simp
    simp only [lookupStore] at ih hsome ⊢
    rw [List.map_cons]
    by_cases hl : (idKey l.identity == idKey o2.identity) = true
    · rw [if_pos hl, findCons_pos _ o2 _ hself]
    · have hl2 : (idKey l.identity == idKey o2.identity) = false := by
        revert hl
        cases idKey l.identity == idKey o2.identity <;> simp
      rw [findCons_neg _ l _ hl2] at hsome
      rw [if_neg hl, findCons_neg _ l _ hl2]
      exact ih hsome

theorem lookup_append_single_self (s : List Obj) (o2 : Obj)
    (hnone : lookupStore s o2.identity = none) :
    lookupStore (s ++ [o2]) o2.identity = some o2 := by
  induction s with
  | nil =>
    have hself : (idKey o2.identity == idKey o2.identity) = true := by simp
    simp only [lookupStore, List.nil_append]
    exact findCons_pos _ o2 _ hself
  | cons l t ih =>
    simp only [lookupStore] at hnone ih ⊢
    rw [List.cons_append]
    cases hp : (idKey l.identity == idKey o2.identity) with
    | true =>
      rw [findCons_pos _ l _ hp] at hnone
      cases hnone
    | false =>
      rw [findCons_neg _ l _ hp] at hnone
      rw [findCons_neg _ l _ hp]
      exact ih hnone

theorem lookup_upsert_self (s : List Obj) (o2 : Obj) :
    lookupStore (upsert s o2) o2.identity = some o2 := by
  unfold upsert
  split
  next h => exact lookup_map_replace_self s o2 h
  next h =>
    apply lookup_append_single_self
    revert h
    cases hL : lookupStore s o2.identity <;> simp

theorem mergeInto_identity (d : Obj) (live : Option Obj) :
    (mergeInto d live).identity = d.identity := by
  cases live <;> rfl

theorem applyOne_store_cases (us : Owner) (opts : ApplyOpts) (s : List Obj)
    (o : Obj) :
    (applyOne us opts s o).2 = s ∨
      ∃ dry : Obj, dry.identity = o.identity ∧
        (applyOne us opts s o).2 = upsert s dry := by
  simp only [applyOne]
  cases hl : lookupStore s o.identity with
  | none =>
    cases hd : opts.dryRunOnly with
    | true => exact Or.inl rfl
    | false =>
      exact Or.inr ⟨mergeInto { o with owner := some us } none, rfl, rfl⟩
  | some l =>
    cases hc : conflictOwner (some l) us with
    | some cur =>
      cases hf : opts.force with
      | false => exact Or.inl rfl
      | true =>
        cases hd : opts.dryRunOnly with
        | true => exact Or.inl rfl
        | false =>
          exact Or.inr ⟨mergeInto { o with owner := some us } (some l),
            mergeInto_identity _ _, rfl⟩
    | none =>
      cases hd : opts.dryRunOnly with
      | true => exact Or.inl rfl
      | false =>
        by_cases heq : strip l =
            strip (mergeInto { o with owner := some us } (some l))
        · left
          simp [Classify, heq]
        · right
          refine ⟨mergeInto { o with owner := some us } (some l),
            mergeInto_identity _ _, ?_⟩
          simp [Classify, heq]

theorem applyOne_lookup_frame (us : Owner) (opts : ApplyOpts) (s : List Obj)
    (o : Obj) (i : ObjectIdentity) (hne : idKey o.identity ≠ idKey i) :
    lookupStore (applyOne us opts s o).2 i = lookupStore s i := by
  rcases applyOne_store_cases us opts s o with h | ⟨dry, hid, h⟩
  · rw [h]
  · rw [h]
    apply lookup_upsert_ne
    rw [hid]
    exact hne

theorem applyList_lookup_frame (us : Owner) (opts : ApplyOpts)
    (objs : List Obj) (s : List Obj) (i : ObjectIdentity)
    (hall : ∀ o ∈ objs, idKey o.identity ≠ idKey i) :
    lookupStore (applyList us opts objs s).2 i = lookupStore s i := by
  induction objs generalizing s with
  | nil => rfl
  | cons o rest ih =>
    simp only [applyList]
    split
    · exact applyOne_lookup_frame us opts s o i (hall o (by simp))
    · rw [ih _ (fun o2 h2 => hall o2 (List.mem_cons_of_mem _ h2))]
      exact applyOne_lookup_frame us opts s o i (hall o (by simp))

theorem applyList_conflict (us mA : Owner) (opts : ApplyOpts)
    (objs : List Obj) (s : List Obj) (o l : Obj)
    (hnodup : (objs.map (fun o => idKey o.identity)).Nodup)
    (hmem : o ∈ objs)
    (hlive : lookupStore s o.identity = some l)
    (hown : l.owner = some mA)
    (hne : mA ≠ us) (hforce : opts.force = false)
    (hff : opts.failFast = false) :
    ((⟨o.identity, .Failed, none,
      some (.ownershipConflictError o.identity mA)⟩ : ChangeRecord) ∈
        (applyList us opts objs s).1) ∧
    lookupStore (applyList us opts objs s).2 o.identity = some l := by
  induction objs generalizing s with
  | nil => cases hmem
  | cons o2 rest ih =>
    have hnd2 : (rest.map (fun o => idKey o.identity)).Nodup := by
      rw [List.map_cons, List.nodup_cons] at hnodup
      exact hnodup.2
    rcases List.mem_cons.mp hmem with rfl | hmem2
    · have hc : conflictOwner (lookupStore s o.identity) us = some mA := by
        rw [hlive]
        simp [conflictOwner, hown, hne]
      have happ : applyOne us opts s o =
          (⟨o.identity, .Failed, none,
            some (.ownershipConflictError o.identity mA)⟩, s) := by
        simp only [applyOne]
        rw [hc, hforce]
      have hall : ∀ o3 ∈ rest, idKey o3.identity ≠ idKey o.identity := by
        intro o3 h3 heq
        rw [List.map_cons, List.nodup_cons] at hnodup
        exact hnodup.1 (List.mem_map.mpr ⟨o3, h3, heq⟩)
      have hstep : applyList us opts (o :: rest) s =
          ((⟨o.identity, .Failed, none,
            some (.ownershipConflictError o.identity mA)⟩ : ChangeRecord) ::
              (applyList us opts rest s).1,
            (applyList us opts rest s).2) := by
        simp [applyList, happ, hff]
      rw [hstep]
      constructor
      · exact List.mem_cons_self _ _
      · show lookupStore (applyList us opts rest s).2 o.identity = some l
        rw [applyList_lookup_frame us opts rest s o.identity hall]
        exact hlive
    · have hkey : idKey o2.identity ≠ idKey o.identity := by
        rw [List.map_cons, List.nodup_cons] at hnodup
        intro heq
        apply hnodup.1
        rw [heq]
        exact List.mem_map.mpr ⟨o, hmem2, rfl⟩
      have hlive2 : lookupStore (applyOne us opts s o2).2 o.identity =
          some l := by
        rw [applyOne_lookup_frame us opts s o2 o.identity hkey]
        exact hlive
      have hih := ih _ hnd2 hmem2 hlive2
      constructor
      · simp only [applyList, hff, Bool.false_and, Bool.false_eq_true,
          if_false]
        exact List.mem_cons_of_mem _ hih.1
      · simp only [applyList, hff, Bool.false_and, Bool.false_eq_true,
          if_false]
        exact hih.2

/-- C1: for every object in the ApplySet whose live store object is owned
by a different marker, Apply without the takeover option emits a Failed
record carrying OwnershipConflictError for that object, and the store
state of that object is exactly the same after the call as before it. -/
theorem apply_ownership_conflict (us mA : Owner) (opts : ApplyOpts)
    (set : ApplySet) (s : List Obj) (o l : Obj)
    (hnodup : (set.objects.map (fun o => idKey o.identity)).Nodup)
    (hmem : o ∈ set.objects)
    (hlive : lookupStore s o.identity = some l)
    (hown : l.owner = some mA)
    (hne : mA ≠ us) (hforce : opts.force = false)
    (hff : opts.failFast = false) :
    ((⟨o.identity, .Failed, none,
      some (.ownershipConflictError o.identity mA)⟩ : ChangeRecord) ∈
        (Apply us opts set s).1) ∧
    lookupStore (Apply us opts set s).2 o.identity = some l :=
  applyList_conflict us mA opts set.objects s o l hnodup hmem hlive hown hne
    hforce hff

/-- C1 witness. -/
theorem apply_ownership_conflict_witness :
    ((⟨cmDesired.identity, .Failed, none,
      some (.ownershipConflictError cmDesired.identity mgrA)⟩ :
        ChangeRecord) ∈
      (Apply mgrB ⟨false, false, false⟩ ⟨[cmDesired]⟩ [plainCm]).1) ∧
    lookupStore (Apply mgrB ⟨false, false, false⟩ ⟨[cmDesired]⟩
      [plainCm]).2 cmDesired.identity = some plainCm :=
  apply_ownership_conflict mgrB mgrA ⟨false, false, false⟩ ⟨[cmDesired]⟩
    [plainCm] cmDesired plainCm (by simp) (by simp) rfl rfl (by decide)
    rfl rfl

theorem applyOne_success_invariant (us : Owner) (opts : ApplyOpts)
    (s : List Obj) (o : Obj)
    (hd : opts.dryRunOnly = false)
    (hsucc : ((applyOne us opts s o).1).action ≠ .Failed) :
    ∃ m, lookupStore (applyOne us opts s o).2 o.identity = some m ∧
      m.owner = some us ∧
      strip (mergeInto { o with owner := some us } (some m)) = strip m := by
  cases hl : lookupStore s o.identity with
  | none =>
    have hstore : (applyOne us opts s o).2 =
        upsert s { o with owner := some us } := by
      cases hf : opts.force <;>
        simp [applyOne, hl, hd, hf, conflictOwner, Classify, mergeInto]
    refine ⟨{ o with owner := some us }, ?_, rfl, rfl⟩
    rw [hstore]
    exact lookup_upsert_self s _
  | some l =>
    cases hc : conflictOwner (some l) us with
    | some cur =>
      cases hf : opts.force with
      | false =>
        exfalso
        apply hsucc
        simp [applyOne, hl, hc, hf]
      | true =>
        have hstore : (applyOne us opts s o).2 =
            upsert s (mergeInto { o with owner := some us } (some l)) := by
          simp [applyOne, hl, hc, hf, hd]
        refine ⟨mergeInto { o with owner := some us } (some l), ?_, rfl, rfl⟩
        rw [hstore]
        exact lookup_upsert_self s _
    | none =>
      by_cases heq : strip l =
          strip (mergeInto { o with owner := some us } (some l))
      · have hstore : (applyOne us opts s o).2 = s := by
          cases hf : opts.force <;>
            simp [applyOne, hl, hc, hf, hd, Classify, heq]
        refine ⟨l, ?_, ?_, heq.symm⟩
        · rw [hstore]
          exact hl
        · exact congrArg Obj.owner heq
      · have hstore : (applyOne us opts s o).2 =
            upsert s (mergeInto { o with owner := some us } (some l)) := by
          cases hf : opts.force <;>
            simp [applyOne, hl, hc, hf, hd, Classify, heq]
        refine ⟨mergeInto { o with owner := some us } (some l), ?_, rfl, rfl⟩
        rw [hstore]
        exact lookup_upsert_self s _

theorem applyOne_unchanged_of_invariant (us : Owner) (opts : ApplyOpts)
    (t : List Obj) (o : Obj) (m : Obj)
    (hd : opts.dryRunOnly = false)
    (hl : lookupStore t o.identity = some m)
    (hmow : m.owner = some us)
    (hstrip : strip (mergeInto { o with owner := some us } (some m)) =
      strip m) :
    applyOne us opts t o = (⟨o.identity, .Unchanged, none, none⟩, t) := by
  have hc : conflictOwner (some m) us = none := by simp [conflictOwner, hmow]
  cases hf : opts.force <;>
    simp [applyOne, hl, hc, hf, hd, Classify, hstrip.symm]

theorem applyList_idempotent (us : Owner) (opts : ApplyOpts)
    (hd : opts.dryRunOnly = false) (objs : List Obj) (s : List Obj)
    (hnodup : (objs.map (fun o => idKey o.identity)).Nodup)
    (hok : ∀ r ∈ (applyList us opts objs s).1, r.action ≠ .Failed) :
    applyList us opts objs ((applyList us opts objs s).2) =
      (objs.map (fun o =>
        (⟨o.identity, .Unchanged, none, none⟩ : ChangeRecord)),
        (applyList us opts objs s).2) := by
  induction objs generalizing s with
  | nil => rfl
  | cons o rest ih =>
    have hnd2 : (rest.map (fun o => idKey o.identity)).Nodup := by
      rw [List.map_cons, List.nodup_cons] at hnodup
      exact hnodup.2
    have hall : ∀ o3 ∈ rest, idKey o3.identity ≠ idKey o.identity := by
      intro o3 h3 heq2
      rw [List.map_cons, List.nodup_cons] at hnodup
      apply hnodup.1
      rw [← heq2]
      exact List.mem_map.mpr ⟨o3, h3, rfl⟩
    have hpmem : (applyOne us opts s o).1 ∈
        (applyList us opts (o :: rest) s).1 := by
      simp only [applyList]
      split
      · exact List.mem_singleton_self _
      · exact List.mem_cons_self _ _
    have hp := hok _ hpmem
    have hcond : (opts.failFast &&
        ((applyOne us opts s o).1.action == Action.Failed)) = false := by
      cases hff2 : opts.failFast <;>
        cases hact : (applyOne us opts s o).1.action <;> simp_all
    have hfirst : applyList us opts (o :: rest) s =
        ((applyOne us opts s o).1 ::
          (applyList us opts rest ((applyOne us opts s o).2)).1,
          (applyList us opts rest ((applyOne us opts s o).2)).2) := by
      simp only [applyList, hcond, Bool.false_eq_true, if_false]
    have hokrest : ∀ r ∈
        (applyList us opts rest ((applyOne us opts s o).2)).1,
          r.action ≠ .Failed := by
      intro r hr
      apply hok
      rw [hfirst]
      exact List.mem_cons_of_mem _ hr
    obtain ⟨m, hm, hmow, hmstrip⟩ :=
      applyOne_success_invariant us opts s o hd hp
    have hlook : lookupStore
        (applyList us opts rest ((applyOne us opts s o).2)).2 o.identity =
          some m := by
      rw [applyList_lookup_frame us opts rest _ o.identity hall]
      exact hm
    have hsecond : applyOne us opts
        ((applyList us opts rest ((applyOne us opts s o).2)).2) o =
        (⟨o.identity, .Unchanged, none, none⟩,
          (applyList us opts rest ((applyOne us opts s o).2)).2) :=
      applyOne_unchanged_of_invariant us opts _ o m hd hlook hmow hmstrip
    have hihr := ih ((applyOne us opts s o).2) hnd2 hokrest
    rw [hfirst]
    show applyList us opts (o :: rest)
        ((applyList us opts rest ((applyOne us opts s o).2)).2) =
      ((o :: rest).map (fun o =>
        (⟨o.identity, .Unchanged, none, none⟩ : ChangeRecord)),
        (applyList us opts rest ((applyOne us opts s o).2)).2)
    simp only [applyList, hsecond]
    rw [hihr]
    simp

/-- C4: if an ApplySet built by Build is applied successfully (no Failed
record) with real writes, a second Apply of the same set against the
resulting store returns a ChangeRecord with action Unchanged for every
object of the set and leaves the store exactly as it was. -/
theorem apply_idempotent (us : Owner) (opts : ApplyOpts) (objs : List Obj)
    (set : ApplySet) (s : List Obj)
    (hbuild : Build objs = .ok set)
    (hd : opts.dryRunOnly = false)
    (hok : ∀ r ∈ (Apply us opts set s).1, r.action ≠ .Failed) :
    Apply us opts set ((Apply us opts set s).2) =
      (set.objects.map (fun o =>
        (⟨o.identity, .Unchanged, none, none⟩ : ChangeRecord)),
        (Apply us opts set s).2) := by
  have hobjs : set.objects = sortPhases objs := by
    cases hb : buildCheck objs [] with
    | ok u =>
      simp [Build, hb, Except.map] at hbuild
      rw [← hbuild]
    | error e => simp [Build, hb, Except.map] at hbuild
  have hnodupObjs : (objs.map (fun o => idKey o.identity)).Nodup := by
    by_contra hcon
    have herr := (build_error_iff objs).1.mpr (Or.inr hcon)
    rcases herr with ⟨e, he⟩
    rw [hbuild] at he
    cases he
  have hnodup : (set.objects.map (fun o => idKey o.identity)).Nodup := by
    rw [hobjs]
    have hperm := (List.filter_append_perm
      (fun o => phase o == 0) objs).map (fun o => idKey o.identity)
    exact hperm.nodup_iff.mpr hnodupObjs
  exact applyList_idempotent us opts hd set.objects s hnodup hok

/-- C4 witness. -/
theorem apply_idempotent_witness :
    Apply mgrA ⟨false, false, false⟩ ⟨[cmDesired]⟩
        ((Apply mgrA ⟨false, false, false⟩ ⟨[cmDesired]⟩ []).2) =
      ([⟨cmDesired.identity, .Unchanged, none, none⟩],
        (Apply mgrA ⟨false, false, false⟩ ⟨[cmDesired]⟩ []).2) :=
  apply_idempotent mgrA ⟨false, false, false⟩ [cmDesired] ⟨[cmDesired]⟩ []
    rfl rfl (by decide)

theorem pairwise_records_of_map {recs : List ChangeRecord}
    {S : ObjectIdentity → ObjectIdentity → Prop}
    (h : (recs.map (fun r => r.identity)).Pairwise S) :
    recs.Pairwise (fun r1 r2 => S r1.identity r2.identity) := by
  induction recs with
  | nil => exact .nil
  | cons r rest ih =>
    rw [List.map_cons, List.pairwise_cons] at h
    exact List.Pairwise.cons
      (fun r2 hr2 => h.1 _ (List.mem_map.mpr ⟨r2, hr2, rfl⟩)) (ih h.2)

theorem applyOne_identity (us : Owner) (opts : ApplyOpts) (s : List Obj)
    (o : Obj) : ((applyOne us opts s o).1).identity = o.identity := by
  cases hc : conflictOwner (lookupStore s o.identity) us <;>
    cases hf : opts.force <;>
      cases hd : opts.dryRunOnly <;>
        simp [applyOne, hc, hf, hd] <;> split <;> rfl

theorem applyList_identities (us : Owner) (opts : ApplyOpts)
    (hff : opts.failFast = false) (objs : List Obj) (s : List Obj) :
    ((applyList us opts objs s).1).map (fun r => r.identity) =
      objs.map (fun o => o.identity) := by
  induction objs generalizing s with
  | nil => rfl
  | cons o rest ih =>
    simp only [applyList, hff, Bool.false_and, Bool.false_eq_true, if_false,
      List.map_cons]
    rw [applyOne_identity, ih]

/-- C3: for every ApplySet produced by Build, Apply returns its
ChangeRecords in phase order — all phase-0 records before later-phase
records, caller order within each phase — and Prune returns its records
in exactly the reverse phase order, so a namespace-like or CRD-like
object is deleted only after every object in later phases. -/
theorem apply_prune_phase_order (objs : List Obj) (set : ApplySet)
    (us : Owner) (opts : ApplyOpts) (s s2 : List Obj)
    (desired : List ObjectIdentity)
    (hbuild : Build objs = .ok set) (hff : opts.failFast = false) :
    ((Apply us opts set s).1.map (fun r => r.identity) =
      (sortPhases objs).map (fun o => o.identity)) ∧
    (Apply us opts set s).1.Pairwise (fun r1 r2 =>
      phaseOfKind r1.identity.kind ≤ phaseOfKind r2.identity.kind) ∧
    (Prune desired us s2).1.Pairwise (fun r1 r2 =>
      phaseOfKind r2.identity.kind ≤ phaseOfKind r1.identity.kind) := by
  have hobjs : set.objects = sortPhases objs := by
    cases hb : buildCheck objs [] with
    | ok u =>
      simp [Build, hb, Except.map] at hbuild
      rw [← hbuild]
    | error e => simp [Build, hb, Except.map] at hbuild
  have hmap : (Apply us opts set s).1.map (fun r => r.identity) =
      (sortPhases objs).map (fun o => o.identity) := by
    rw [Apply, hobjs]
    exact applyList_identities us opts hff (sortPhases objs) s
  refine ⟨hmap, ?_, ?_⟩
  · have h1 : ((sortPhases objs).map (fun o => o.identity)).Pairwise
        (fun i1 i2 => phaseOfKind i1.kind ≤ phaseOfKind i2.kind) :=
      List.pairwise_map.mpr (by simpa [phase] using sortPhases_pairwise objs)
    rw [← hmap] at h1
    exact pairwise_records_of_map h1
  · rw [prune_records]
    apply List.pairwise_map.mpr
    have hrec : ∀ o : Obj,
        (if o.retain then (⟨o.identity, .Skipped, none, none⟩ : ChangeRecord)
          else ⟨o.identity, .Deleted, none, none⟩).identity = o.identity := by
      intro o
      cases o.retain <;> rfl
    have h2 := (sortPhases_pairwise ((inventory s2 us).filter
      (fun o => !(inDesired desired o.identity))))
    rw [List.pairwise_reverse]
    apply h2.imp
    intro a b hab
    rw [hrec a, hrec b]
    simpa [phase] using hab

/-- C3 witness. -/
theorem apply_prune_phase_order_witness :
    ((Apply mgrA ⟨false, false, false⟩ ⟨[plainCm]⟩ []).1.map
        (fun r => r.identity) =
      (sortPhases [plainCm]).map (fun o => o.identity)) ∧
    (Apply mgrA ⟨false, false, false⟩ ⟨[plainCm]⟩ []).1.Pairwise (fun r1 r2 =>
      phaseOfKind r1.identity.kind ≤ phaseOfKind r2.identity.kind) ∧
    (Prune [] mgrA []).1.Pairwise (fun r1 r2 =>
      phaseOfKind r2.identity.kind ≤ phaseOfKind r1.identity.kind) :=
  apply_prune_phase_order [plainCm] ⟨[plainCm]⟩ mgrA ⟨false, false, false⟩
    [] [] [] rfl rfl

/-- C2 witness. -/
theorem prune_deletes_exactly_witness :
    (⟨plainCm.identity, .Deleted, none, none⟩ : ChangeRecord) ∈
        (Prune [] mgrA [plainCm]).1 ∧
      (⟨plainCm.identity, .Deleted, none, none⟩ : ChangeRecord).action =
        .Deleted :=
  ((prune_deletes_exactly [] mgrA [plainCm]).1
      ⟨plainCm.identity, .Deleted, none, none⟩).mpr
    ⟨plainCm, by simp, rfl, rfl, rfl, rfl⟩

end SSA
